import Mathlib

/-!
Verification of the schedule-resolution engine of the catholic-church-finder
repository (`src/services/churchService.ts`).

The TypeScript source is shallowly embedded below.  Strings are modelled as
`List Char` (via `String.data`); JavaScript numbers that only ever hold
non-negative integers (minutes since midnight, weekday indices, parsed digit
groups) are modelled as `Nat`.  `String.prototype.toLowerCase` is modelled on
the ASCII range (the only range the schedule data and key sets exercise);
the JavaScript regex classes `\d`, `\s` and `\w` are modelled exactly
(`\d` and `\w` are ASCII-only in a non-unicode regex; `\s` is the JS
whitespace class).
-/

namespace ChurchFinder

/-- JS regex class `\d` = `[0-9]`. -/
def isDigitC (c : Char) : Bool :=
  48 ≤ c.toNat && c.toNat ≤ 57

/-- JS regex class `\s` (whitespace, as in `String.prototype.trim`). -/
def isJsSpace (c : Char) : Bool :=
  c.toNat = 32 || c.toNat = 9 || c.toNat = 10 || c.toNat = 11 || c.toNat = 12 ||
  c.toNat = 13 || c.toNat = 0xa0 || c.toNat = 0x1680 ||
  (0x2000 ≤ c.toNat && c.toNat ≤ 0x200a) || c.toNat = 0x2028 || c.toNat = 0x2029 ||
  c.toNat = 0x202f || c.toNat = 0x205f || c.toNat = 0x3000 || c.toNat = 0xfeff

/-- JS regex class `\w` = `[A-Za-z0-9_]`. -/
def isWordChar (c : Char) : Bool :=
  (97 ≤ c.toNat && c.toNat ≤ 122) || (65 ≤ c.toNat && c.toNat ≤ 90) ||
  (48 ≤ c.toNat && c.toNat ≤ 57) || c.toNat = 95

/-- `String.prototype.toLowerCase`, restricted to the ASCII letters. -/
def toLowerJs (c : Char) : Char :=
  if 65 ≤ c.toNat ∧ c.toNat ≤ 90 then Char.ofNat (c.toNat + 32) else c

/-- Numeric value of a digit character. -/
def digitVal (c : Char) : Nat := c.toNat - 48

/-! ### The time-string parser (`parseTimes`, part_000 lines 166-196) -/

/-- The meridiem marker recognised by the time regex, after the source's
`toLowerCase().replace(/\./g, '')` canonicalisation (`"a.m."` becomes `"am"`). -/
inductive Meridiem where
  | am : Meridiem
  | pm : Meridiem
  | noon : Meridiem
deriving DecidableEq, Repr

/-- One match of the regex `(\d{1,2})(?::(\d{2}))?\s*(am|pm|noon|a\.m\.|p\.m\.)?`:
the hour digits, the optional two-digit minute group, the optional meridiem. -/
structure RawTok where
  hour : Nat
  minutes : Option Nat
  mer : Option Meridiem
deriving DecidableEq, Repr

/-- The optional minute group `(?::(\d{2}))?`: a colon followed by exactly two
digits; on failure nothing is consumed. -/
def matchMinutes (l : List Char) : Option Nat × List Char :=
  match l with
  | ':' :: a :: b :: rest =>
      if isDigitC a && isDigitC b then (some (10 * digitVal a + digitVal b), rest)
      else (none, ':' :: a :: b :: rest)
  | _ => (none, l)

/-- Case-insensitive literal match of `pat` at the head of `l` (the regex has
the `i` flag); returns the remainder on success. -/
def stripCI : List Char → List Char → Option (List Char)
  | [], l => some l
  | _ :: _, [] => none
  | p :: ps, c :: cs => if toLowerJs c = toLowerJs p then stripCI ps cs else none

/-- The optional meridiem group `(am|pm|noon|a\.m\.|p\.m\.)?`, alternatives
tried in source order; on failure nothing is consumed. -/
def matchMeridiem (l : List Char) : Option Meridiem × List Char :=
  match stripCI ['a', 'm'] l with
  | some r => (some .am, r)
  | none =>
    match stripCI ['p', 'm'] l with
    | some r => (some .pm, r)
    | none =>
      match stripCI ['n', 'o', 'o', 'n'] l with
      | some r => (some .noon, r)
      | none =>
        match stripCI ['a', '.', 'm', '.'] l with
        | some r => (some .am, r)
        | none =>
          match stripCI ['p', '.', 'm', '.'] l with
          | some r => (some .pm, r)
          | none => (none, l)

/-- After the hour digits have been read: the optional `:MM` group, then
`\s*`, then the optional meridiem.  Returns the token and the remainder of
the input (the regex match ends after the consumed whitespace even when no
meridiem follows). -/
def afterHour (h : Nat) (l : List Char) : RawTok × List Char :=
  let m1 := matchMinutes l
  let l2 := m1.2.dropWhile isJsSpace
  let m3 := matchMeridiem l2
  ({ hour := h, minutes := m1.1, mer := m3.1 }, m3.2)

theorem stripCI_length {p l r : List Char} (h : stripCI p l = some r) :
    r.length ≤ l.length := by
  induction p generalizing l r with
  | nil => simp_all [stripCI]
  | cons x xs ih =>
    cases l with
    | nil => simp [stripCI] at h
    | cons c cs =>
      simp only [stripCI] at h
      split at h
      · exact Nat.le_succ_of_le (ih h)
      · exact absurd h (by simp)

theorem matchMinutes_length (l : List Char) :
    (matchMinutes l).2.length ≤ l.length := by
  unfold matchMinutes
  split
  · split
    · simp only [List.length_cons]
      omega
    · simp
  · simp

theorem matchMeridiem_length (l : List Char) :
    (matchMeridiem l).2.length ≤ l.length := by
  unfold matchMeridiem
  split
  · exact stripCI_length (by assumption)
  · split
    · exact stripCI_length (by assumption)
    · split
      · exact stripCI_length (by assumption)
      · split
        · exact stripCI_length (by assumption)
        · split
          · exact stripCI_length (by assumption)
          · simp

theorem afterHour_length (h : Nat) (l : List Char) :
    (afterHour h l).2.length ≤ l.length := by
  unfold afterHour
  calc (matchMeridiem ((matchMinutes l).2.dropWhile isJsSpace)).2.length
      ≤ ((matchMinutes l).2.dropWhile isJsSpace).length :=
        matchMeridiem_length _
    _ ≤ (matchMinutes l).2.length :=
        List.Sublist.length_le (List.IsSuffix.sublist (List.dropWhile_suffix isJsSpace))
    _ ≤ l.length := matchMinutes_length l

/-- The scan performed by `text.matchAll(timeRegex)`: the regex must start
with a digit, so the engine skips to the next digit, matches greedily
(two hour digits if available), and resumes after the match. -/
def scanAux (l : List Char) : List RawTok :=
  match l with
  | [] => []
  | c :: cs =>
    if isDigitC c then
      match cs with
      | c2 :: cs2 =>
        if isDigitC c2 then
          (afterHour (10 * digitVal c + digitVal c2) cs2).1 ::
            scanAux (afterHour (10 * digitVal c + digitVal c2) cs2).2
        else
          (afterHour (digitVal c) (c2 :: cs2)).1 ::
            scanAux (afterHour (digitVal c) (c2 :: cs2)).2
      | [] => [{ hour := digitVal c, minutes := none, mer := none }]
    else scanAux cs
termination_by l.length
decreasing_by
  all_goals simp only [List.length_cons]
  · have h := afterHour_length (10 * digitVal c + digitVal c2) cs2
    omega
  · have h := afterHour_length (digitVal c) (c2 :: cs2)
    simp only [List.length_cons] at h
    omega
  · omega

/-- Resolution of one matched token into minutes since midnight
(part_000 lines 171-194), including the missing-meridiem fallback. -/
def resolveTok (t : RawTok) : Nat :=
  let mins := t.minutes.getD 0
  let hours :=
    match t.mer with
    | some .pm => if t.hour < 12 then t.hour + 12 else t.hour
    | some .am => if t.hour = 12 then 0 else t.hour
    | some .noon => 12
    | none => if 1 ≤ t.hour ∧ t.hour ≤ 6 then t.hour + 12 else t.hour
  hours * 60 + mins

/-- `parseTimes` (part_000 lines 166-196). -/
def parseTimes (text : String) : List Nat :=
  (scanAux text.data).map resolveTok

/-! ### The day-restriction heuristic (`hasDayRestrictionConflict`, part_000 lines 119-164) -/

/-- `text.search(/\d/)`: the characters before the first digit, or `none` when
the text contains no digit. -/
def takeBeforeDigit : List Char → Option (List Char)
  | [] => none
  | c :: cs => if isDigitC c then some [] else (takeBeforeDigit cs).map (c :: ·)

/-- `String.prototype.trim`. -/
def trimWs (l : List Char) : List Char :=
  ((l.dropWhile isJsSpace).reverse.dropWhile isJsSpace).reverse

/-- Does `l` start with `p` (exact characters)? -/
def startsWithL : List Char → List Char → Bool
  | [], _ => true
  | _ :: _, [] => false
  | p :: ps, c :: cs => p = c && startsWithL ps cs

/-- `String.prototype.includes`: `p` occurs as a contiguous substring of `l`. -/
def containsSub (p : List Char) : List Char → Bool
  | [] => startsWithL p []
  | c :: cs => startsWithL p (c :: cs) || containsSub p cs

/-- The `dayMap` of the source, keys already lower-cased (the source lower-cases
each key before the substring test), in object-key insertion order. -/
def dayMap : List (List Char × Nat) :=
  [("mon".data, 1), ("tue".data, 2), ("wed".data, 3), ("thu".data, 4),
   ("thur".data, 4), ("fri".data, 5), ("sat".data, 6), ("sun".data, 0)]

/-- The `daysFound` array: the weekday indices of every day key occurring in
the lower-cased prefix, in key order (`thu`/`thur` can both fire). -/
def daysFound (pre : List Char) : List Nat :=
  (dayMap.filter (fun kv => containsSub kv.1 pre)).map (fun kv => kv.2)

/-- The range-phrase branch (part_000 lines 150-158): a range connector plus
`mon`/`fri` covers days 1-5, plus `mon`/`sat` covers days 1-6. -/
def rangeAllows (pre : List Char) (d : Nat) : Bool :=
  (containsSub " to ".data pre || containsSub ['-'] pre) &&
  ((containsSub "mon".data pre && containsSub "fri".data pre &&
      decide (1 ≤ d) && decide (d ≤ 5)) ||
   (containsSub "mon".data pre && containsSub "sat".data pre &&
      decide (1 ≤ d) && decide (d ≤ 6)))

/-- `hasDayRestrictionConflict` (part_000 lines 119-164). -/
def hasDayRestrictionConflict (text : String) (currentDay : Nat) : Bool :=
  match takeBeforeDigit text.data with
  | none => false
  | some p =>
    let pre := p.map toLowerJs
    if (trimWs pre).length < 3 then false
    else if (daysFound pre).isEmpty then false
    else if rangeAllows pre currentDay then false
    else if (daysFound pre).contains currentDay then false
    else true

example : hasDayRestrictionConflict "Mon to Fri 7:00am" 3 = false := by decide
example : hasDayRestrictionConflict "Mon to Fri 7:00am" 0 = true := by decide
example : hasDayRestrictionConflict "7:00am" 4 = false := by decide

/-! ### Next-occurrence selection (`calculateNextMassTime`, part_000 lines 82-117) -/

/-- One entry of a church's schedule array: `{ type, time }`. -/
structure ScheduleItem where
  type : String
  time : String
deriving DecidableEq, Repr

/-- The `categories` array built from the weekday (part_000 lines 90-97). -/
def categoriesFor (day : Nat) : List String :=
  if day = 0 then ["Sunday Masses"]
  else if day = 6 then ["Weekday Masses", "Anticipated Sunday Masses"]
  else ["Weekday Masses"]

/-- The inner update `if (t >= currentMinutes && t < nextMass) nextMass = t`,
with `none` playing the role of the initial `Infinity`. -/
def considerTime (currentMinutes : Nat) (acc : Option Nat) (t : Nat) : Option Nat :=
  match acc with
  | none => if currentMinutes ≤ t then some t else none
  | some n => if currentMinutes ≤ t ∧ t < n then some t else some n

/-- The body of the `forEach` over schedule items (part_000 lines 101-114). -/
def processItem (day currentMinutes : Nat) (acc : Option Nat) (item : ScheduleItem) :
    Option Nat :=
  if !((categoriesFor day).contains item.type) then acc
  else if hasDayRestrictionConflict item.time day then acc
  else (parseTimes item.time).foldl (considerTime currentMinutes) acc

/-- `calculateNextMassTime` (part_000 lines 82-117), with the weekday and the
minutes-since-midnight that the source reads from `new Date()` made explicit
parameters (the source computes them from the system clock at call time). -/
def calculateNextMassTime (schedule : List ScheduleItem) (day currentMinutes : Nat) :
    Option Nat :=
  schedule.foldl (processItem day currentMinutes) none

/-- Minimum of two optional minute values (`none` = no candidate). -/
def optMin : Option Nat → Option Nat → Option Nat
  | none, b => b
  | some a, none => some a
  | some a, some b => some (if a ≤ b then a else b)

/-- Minimum of a list of minute values (`none` on the empty list). -/
def listMinOpt : List Nat → Option Nat
  | [] => none
  | t :: ts => optMin (some t) (listMinOpt ts)

/-- Modelled from the spec, §4.2 steps 3-4: the clock times of every entry
whose category is applicable and whose text has no day-restriction conflict. -/
def specCandidateTimes (schedule : List ScheduleItem) (day : Nat) : List Nat :=
  schedule.foldr
    (fun item acc =>
      if (categoriesFor day).contains item.type &&
          !hasDayRestrictionConflict item.time day
      then parseTimes item.time ++ acc else acc) []

/-- Modelled from the spec, §4.2 steps 4-5: the minimum qualifying time
`t >= nowMinutes`, absent when no time qualifies. -/
def specNextOccurrence (schedule : List ScheduleItem) (day now : Nat) : Option Nat :=
  listMinOpt ((specCandidateTimes schedule day).filter (fun t => decide (now ≤ t)))

/-! ### The name normalizer (inside `getMassSchedule`, part_000 lines 198-222)

The two word-replacement steps use regexes of the shape `/\b(w1|w2|...)\b/g`
where every alternative starts and ends with a `\w` character.  For such
patterns a match can begin only at a position whose preceding character is
not a word character, and requires the character following the matched
alternative to not be a word character; the global replace scans left to
right and resumes after each match (boundaries are judged on the original
text, so after a match the "previous character" is the last — word —
character of the matched alternative). -/

/-- Literal match of a character list at the head of `l`. -/
def stripRest : List Char → List Char → Option (List Char)
  | [], l => some l
  | _ :: _, [] => none
  | p :: ps, c :: cs => if c = p then stripRest ps cs else none

/-- A pattern is a head character plus the rest (so it is nonempty by
construction); match it literally at the head of `l`. -/
def stripPat : Char × List Char → List Char → Option (List Char)
  | (p, ps), c :: cs => if c = p then stripRest ps cs else none
  | _, [] => none

/-- The trailing `\b`: the next character (if any) is not a word character. -/
def okAfter : List Char → Bool
  | [] => true
  | c :: _ => !isWordChar c

/-- Try the alternatives in source order at the current position; each must
also satisfy the trailing word boundary. -/
def findPats : List (Char × List Char) → List Char → Option (List Char)
  | [], _ => none
  | p :: ps, l =>
    match stripPat p l with
    | some r => if okAfter r then some r else findPats ps l
    | none => findPats ps l

theorem stripRest_length {p l r : List Char} (h : stripRest p l = some r) :
    r.length ≤ l.length := by
  induction p generalizing l r with
  | nil => simp_all [stripRest]
  | cons x xs ih =>
    cases l with
    | nil => simp [stripRest] at h
    | cons c cs =>
      simp only [stripRest] at h
      split at h
      · exact Nat.le_succ_of_le (ih h)
      · exact absurd h (by simp)

theorem stripPat_length {p : Char × List Char} {l r : List Char}
    (h : stripPat p l = some r) : r.length < l.length := by
  match p, l with
  | (x, xs), [] => simp [stripPat] at h
  | (x, xs), c :: cs =>
    simp only [stripPat] at h
    split at h
    · exact Nat.lt_succ_of_le (stripRest_length h)
    · exact absurd h (by simp)

theorem findPats_length {pats : List (Char × List Char)} {l r : List Char}
    (h : findPats pats l = some r) : r.length < l.length := by
  induction pats with
  | nil => simp [findPats] at h
  | cons p ps ih =>
    simp only [findPats] at h
    cases hs : stripPat p l with
    | none => rw [hs] at h; exact ih h
    | some r₀ =>
      rw [hs] at h
      by_cases ho : okAfter r₀
      · simp only [if_pos ho] at h
        cases h
        exact stripPat_length hs
      · simp only [if_neg ho] at h
        exact ih h

/-- The left-to-right global replace for `/\b(...)\b/g` patterns whose
alternatives start and end with word characters.  `prevWord` records whether
the previous character of the original text is a word character: a match can
start only where it is not, and after a match it is (patterns end with a
word character). -/
def replaceScan (pats : List (Char × List Char)) (repl : List Char) :
    Bool → List Char → List Char
  | _, [] => []
  | prevWord, c :: cs =>
    if prevWord then c :: replaceScan pats repl (isWordChar c) cs
    else
      match h : findPats pats (c :: cs) with
      | some rest => repl ++ replaceScan pats repl true rest
      | none => c :: replaceScan pats repl (isWordChar c) cs
termination_by _ l => l.length
decreasing_by
  · simp only [List.length_cons]
    omega
  · have := findPats_length h
    simp only [List.length_cons] at this ⊢
    omega
  · simp only [List.length_cons]
    omega

/-- The single pattern of `norm.replace(/\bsaint\b/g, 'st')`. -/
def saintPats : List (Char × List Char) := [('s', "aint".data)]

/-- The alternatives of
`norm.replace(/\b(church|parish|chapel|mass centre|center|catholic)\b/g, '')`,
in source order. -/
def stopPats : List (Char × List Char) :=
  [('c', "hurch".data), ('p', "arish".data), ('c', "hapel".data),
   ('m', "ass centre".data), ('c', "enter".data), ('c', "atholic".data)]

/-- Step 2 of the normalizer: replace the standalone word `saint` by `st`. -/
def replaceSaint (l : List Char) : List Char := replaceScan saintPats "st".data false l

/-- Step 4 of the normalizer: remove the standalone stop-words. -/
def removeStopWords (l : List Char) : List Char := replaceScan stopPats [] false l

/-- Step 3 keeps exactly the characters `[^\w\s]` removes nothing from. -/
def keepChar (c : Char) : Bool := isWordChar c || isJsSpace c

/-- `norm.replace(/\s+/g, ' ')`: collapse every whitespace run to one space. -/
def collapseWs : List Char → List Char
  | [] => []
  | c :: cs =>
    if isJsSpace c then ' ' :: collapseWs (cs.dropWhile isJsSpace)
    else c :: collapseWs cs
termination_by l => l.length
decreasing_by
  · have : (cs.dropWhile isJsSpace).length ≤ cs.length :=
      List.Sublist.length_le (List.IsSuffix.sublist (List.dropWhile_suffix isJsSpace))
    simp only [List.length_cons]
    omega
  · simp only [List.length_cons]
    omega

/-- The name normalization of `getMassSchedule` (part_000 lines 198-212):
lower-case, `saint` to `st`, strip punctuation, remove stop-words, collapse
and trim whitespace. -/
def normalize (s : String) : String :=
  ⟨trimWs (collapseWs (removeStopWords ((replaceSaint (s.data.map toLowerJs)).filter keepChar)))⟩

/-- A value of the static `hk_mass_schedules.json` table. -/
structure MassScheduleData where
  originalName : String
  schedule : List ScheduleItem
deriving DecidableEq, Repr

/-- `getMassSchedule` (part_000 lines 198-222): the table, an external static
JSON object, is passed as a function from keys to optional values. -/
def getMassSchedule (table : String → Option MassScheduleData) (name : String) :
    Option MassScheduleData :=
  table (normalize name)

/-! ### The church pipeline (`findNearbyChurches`, part_000 lines 20-80)

An Overpass element is modelled by the parts the pipeline reads: its id, its
optional `tags.name`, and the haversine distance of its coordinates from the
query point.  The source computes that distance with floating-point
arithmetic (`calculateDistance`); the coordinates and the resulting distance
are modelled as one opaque non-negative value per element, and the
floating-point coordinate fields and the address formatting (not used by any
claim) are not carried over. -/

structure Element where
  id : Nat
  name : Option String
  dist : Nat
deriving DecidableEq, Repr

structure Church where
  id : Nat
  name : String
  distance : Option Nat
  massSchedule : Option MassScheduleData
  nextMassTime : Option Nat
deriving DecidableEq, Repr

/-- The mis-tagged-denomination test (part_000 line 52). -/
def isExcludedName (name : String) : Bool :=
  containsSub "Swatow Christian".data name.data ||
  containsSub "Lutheran".data name.data ||
  containsSub "Methodist".data name.data ||
  containsSub "Baptist".data name.data

/-- `element.tags.name || "Unknown Catholic Church"` (the empty string is
falsy in JS, so it also falls back to the default). -/
def elementName (e : Element) : String :=
  match e.name with
  | none => "Unknown Catholic Church"
  | some s => if s.isEmpty then "Unknown Catholic Church" else s

/-- The body of the `data.map(...)` callback (part_000 lines 45-72): `null`
for excluded names, otherwise the decorated church record. -/
def toChurchOpt (table : String → Option MassScheduleData) (day now : Nat)
    (e : Element) : Option Church :=
  let name := elementName e
  if isExcludedName name then none
  else
    let sched := getMassSchedule table name
    some { id := e.id, name := name, distance := some e.dist, massSchedule := sched,
           nextMassTime :=
             match sched with
             | none => none
             | some s => calculateNextMassTime s.schedule day now }

/-- The sort comparator `(a, b) => (a.distance || 0) - (b.distance || 0)`
holds (is `<= 0`) exactly when the left distance is at most the right one. -/
def churchLe (a b : Church) : Bool :=
  decide (a.distance.getD 0 ≤ b.distance.getD 0)

/-- `findNearbyChurches` (part_000 lines 45-74) after the response arrives:
map to nullable churches, drop the nulls, sort by distance.
`Array.prototype.sort` (stable, comparator-based) is modelled by the stable
`List.mergeSort` with the comparator's non-positive relation.  The weekday
and minutes that `calculateNextMassTime` reads from the system clock are
parameters, as is the schedule table. -/
def findNearbyChurches (table : String → Option MassScheduleData) (day now : Nat)
    (elems : List Element) : List Church :=
  ((elems.map (toChurchOpt table day now)).filterMap id).mergeSort churchLe


/-! ### Structural evaluation twins

`scanAux`, `replaceScan` and `collapseWs` are defined by well-founded
recursion and therefore do not reduce inside `decide`.  The following
fuelled versions are structurally recursive and provably equal to them
whenever the fuel is at least the input length (each iteration consumes at
least one character, so that much fuel is always enough). -/

/-- Fuelled version of `scanAux`. -/
def scanAuxF : Nat → List Char → List RawTok
  | 0, _ => []
  | fuel + 1, l =>
    match l with
    | [] => []
    | c :: cs =>
      if isDigitC c then
        match cs with
        | c2 :: cs2 =>
          if isDigitC c2 then
            (afterHour (10 * digitVal c + digitVal c2) cs2).1 ::
              scanAuxF fuel (afterHour (10 * digitVal c + digitVal c2) cs2).2
          else
            (afterHour (digitVal c) (c2 :: cs2)).1 ::
              scanAuxF fuel (afterHour (digitVal c) (c2 :: cs2)).2
        | [] => [{ hour := digitVal c, minutes := none, mer := none }]
      else scanAuxF fuel cs

theorem scanAuxF_succ_cons (fuel : Nat) (c : Char) (cs : List Char) :
    scanAuxF (fuel + 1) (c :: cs) =
      (if isDigitC c then
        match cs with
        | c2 :: cs2 =>
          if isDigitC c2 then
            (afterHour (10 * digitVal c + digitVal c2) cs2).1 ::
              scanAuxF fuel (afterHour (10 * digitVal c + digitVal c2) cs2).2
          else
            (afterHour (digitVal c) (c2 :: cs2)).1 ::
              scanAuxF fuel (afterHour (digitVal c) (c2 :: cs2)).2
        | [] => [{ hour := digitVal c, minutes := none, mer := none }]
      else scanAuxF fuel cs) := rfl

theorem scanAux_eq_fuel :
    ∀ (fuel : Nat) (l : List Char), l.length ≤ fuel → scanAux l = scanAuxF fuel l := by
  intro fuel
  induction fuel with
  | zero =>
    intro l hl
    have hnil : l = [] := by
      cases l with
      | nil => rfl
      | cons c cs => simp at hl
    subst hnil
    conv_lhs => rw [scanAux.eq_def]
    rfl
  | succ n ih =>
    intro l hl
    match l with
    | [] =>
      conv_lhs => rw [scanAux.eq_def]
      rfl
    | c :: cs =>
      conv_lhs => rw [scanAux.eq_def]
      rw [scanAuxF_succ_cons]
      by_cases hd : isDigitC c
      · simp only [hd, if_true]
        match cs with
        | [] => rfl
        | c2 :: cs2 =>
          by_cases hd2 : isDigitC c2
          · simp only [hd2, if_true]
            have hlen := afterHour_length (10 * digitVal c + digitVal c2) cs2
            have hle : (afterHour (10 * digitVal c + digitVal c2) cs2).2.length ≤ n := by
              simp only [List.length_cons] at hl
              omega
            rw [ih _ hle]
          · simp only [hd2, if_false]
            have hlen := afterHour_length (digitVal c) (c2 :: cs2)
            have hle : (afterHour (digitVal c) (c2 :: cs2)).2.length ≤ n := by
              simp only [List.length_cons] at hl hlen
              omega
            rw [ih _ hle]
            simp
      · simp only [hd, if_false]
        have hle : cs.length ≤ n := by
          simp only [List.length_cons] at hl
          omega
        rw [ih _ hle]
        simp

/-- Fuelled version of `replaceScan`. -/
def replaceScanF (pats : List (Char × List Char)) (repl : List Char) :
    Nat → Bool → List Char → List Char
  | 0, _, _ => []
  | fuel + 1, prevWord, l =>
    match l with
    | [] => []
    | c :: cs =>
      if prevWord then c :: replaceScanF pats repl fuel (isWordChar c) cs
      else
        match findPats pats (c :: cs) with
        | some rest => repl ++ replaceScanF pats repl fuel true rest
        | none => c :: replaceScanF pats repl fuel (isWordChar c) cs

theorem replaceScanF_succ_cons (pats : List (Char × List Char)) (repl : List Char)
    (fuel : Nat) (prevWord : Bool) (c : Char) (cs : List Char) :
    replaceScanF pats repl (fuel + 1) prevWord (c :: cs) =
      (if prevWord then c :: replaceScanF pats repl fuel (isWordChar c) cs
      else
        match findPats pats (c :: cs) with
        | some rest => repl ++ replaceScanF pats repl fuel true rest
        | none => c :: replaceScanF pats repl fuel (isWordChar c) cs) := rfl

theorem replaceScan_eq_fuel (pats : List (Char × List Char)) (repl : List Char) :
    ∀ (fuel : Nat) (b : Bool) (l : List Char), l.length ≤ fuel →
      replaceScan pats repl b l = replaceScanF pats repl fuel b l := by
  intro fuel
  induction fuel with
  | zero =>
    intro b l hl
    have hnil : l = [] := by
      cases l with
      | nil => rfl
      | cons c cs => simp at hl
    subst hnil
    conv_lhs => rw [replaceScan.eq_def]
    cases b <;> rfl
  | succ n ih =>
    intro b l hl
    match l with
    | [] =>
      conv_lhs => rw [replaceScan.eq_def]
      cases b <;> rfl
    | c :: cs =>
      conv_lhs => rw [replaceScan.eq_def]
      rw [replaceScanF_succ_cons]
      by_cases hb : b
      · simp only [hb, if_true]
        have hle : cs.length ≤ n := by
          simp only [List.length_cons] at hl
          omega
        rw [ih _ _ hle]
      · simp only [hb, if_false]
        have hcs : cs.length ≤ n := by
          simp only [List.length_cons] at hl
          omega
        cases hf : findPats pats (c :: cs) with
        | none =>
          simp only [hf]
          rw [ih _ _ hcs]
        | some rest =>
          simp only [hf]
          have hlen := findPats_length hf
          have hrest : rest.length ≤ n := by
            simp only [List.length_cons] at hl hlen
            omega
          rw [ih _ _ hrest]
          simp

/-- Fuelled version of `collapseWs`. -/
def collapseWsF : Nat → List Char → List Char
  | 0, _ => []
  | fuel + 1, l =>
    match l with
    | [] => []
    | c :: cs =>
      if isJsSpace c then ' ' :: collapseWsF fuel (cs.dropWhile isJsSpace)
      else c :: collapseWsF fuel cs

theorem collapseWsF_succ_cons (fuel : Nat) (c : Char) (cs : List Char) :
    collapseWsF (fuel + 1) (c :: cs) =
      (if isJsSpace c then ' ' :: collapseWsF fuel (cs.dropWhile isJsSpace)
      else c :: collapseWsF fuel cs) := rfl

set_option maxHeartbeats 1000000 in
theorem collapseWs_eq_fuel :
    ∀ (fuel : Nat) (l : List Char), l.length ≤ fuel → collapseWs l = collapseWsF fuel l := by
  intro fuel
  induction fuel with
  | zero =>
    intro l hl
    have hnil : l = [] := by
      cases l with
      | nil => rfl
      | cons c cs => simp at hl
    subst hnil
    conv_lhs => rw [collapseWs.eq_def]
    rfl
  | succ n ih =>
    intro l hl
    match l with
    | [] =>
      conv_lhs => rw [collapseWs.eq_def]
      rfl
    | c :: cs =>
      conv_lhs => rw [collapseWs.eq_def]
      rw [collapseWsF_succ_cons]
      have hcs : cs.length ≤ n := by
        simp only [List.length_cons] at hl
        omega
      by_cases hs : isJsSpace c
      · simp only [hs, if_true]
        have hdrop : (cs.dropWhile isJsSpace).length ≤ cs.length :=
          List.Sublist.length_le (List.IsSuffix.sublist (List.dropWhile_suffix isJsSpace))
        rw [ih _ (Nat.le_trans hdrop hcs)]
      · simp only [hs, if_false]
        rw [ih _ hcs]
        simp

/-- Executable form of `parseTimes`: fuel the scanner with the text length. -/
theorem parseTimes_eval (text : String) :
    parseTimes text = (scanAuxF text.data.length text.data).map resolveTok := by
  rw [parseTimes, scanAux_eq_fuel text.data.length text.data (Nat.le_refl _)]

/-- Fully fuelled, structurally recursive form of the normalizer. -/
def normalizeF (s : String) : String :=
  let l1 := s.data.map toLowerJs
  let l2 := replaceScanF saintPats "st".data l1.length false l1
  let l3 := l2.filter keepChar
  let l4 := replaceScanF stopPats [] l3.length false l3
  ⟨trimWs (collapseWsF l4.length l4)⟩

/-- Executable form of `normalize`. -/
theorem normalize_eval (s : String) : normalize s = normalizeF s := by
  rw [normalize, normalizeF, replaceSaint, removeStopWords]
  rw [replaceScan_eq_fuel saintPats "st".data (s.data.map toLowerJs).length false
    (s.data.map toLowerJs) (Nat.le_refl _)]
  rw [replaceScan_eq_fuel stopPats [] _ false _ (Nat.le_refl _)]
  rw [collapseWs_eq_fuel _ _ (Nat.le_refl _)]

example : parseTimes "12:00 noon" = [720] := by
  rw [parseTimes_eval]
  decide

example : parseTimes "9 P.M." = [1260] := by
  rw [parseTimes_eval]
  decide

example : normalize "St. Joseph\x27s Church" = "st josephs" := by
  rw [normalize_eval]
  decide

example : normalize "saint joseph\x27s CHURCH" = "st josephs" := by
  rw [normalize_eval]
  decide


/-! ### Bounds on parsed tokens -/

theorem charToNat_ofNat (n : Nat) (h : n < 55296) : (Char.ofNat n).toNat = n := by
  have hv : n.isValidChar := Or.inl h
  simp [Char.ofNat, hv, Char.ofNatAux, Char.toNat, UInt32.toNat, BitVec.toNat_ofNatLt]

theorem isDigitC_digitVal {c : Char} (h : isDigitC c = true) : digitVal c ≤ 9 := by
  simp only [isDigitC, Bool.and_eq_true, decide_eq_true_eq] at h
  simp only [digitVal]
  omega

theorem matchMinutes_bound (l : List Char) (m : Nat)
    (hm : (matchMinutes l).1 = some m) : m ≤ 99 := by
  unfold matchMinutes at hm
  split at hm
  · rename_i a b rest
    split at hm
    · rename_i hab
      rw [Bool.and_eq_true] at hab
      have ha := isDigitC_digitVal hab.1
      have hb := isDigitC_digitVal hab.2
      simp only [Option.some.injEq] at hm
      omega
    · simp at hm
  · simp at hm

theorem matchMinutes_getD (l : List Char) : (matchMinutes l).1.getD 0 ≤ 99 := by
  cases hm : (matchMinutes l).1 with
  | none => simp
  | some m => simpa using matchMinutes_bound l m hm

theorem scanAuxF_zero (l : List Char) : scanAuxF 0 l = [] := rfl

theorem scanAuxF_succ_nil (fuel : Nat) : scanAuxF (fuel + 1) [] = [] := rfl

theorem afterHour_tok (h : Nat) (l : List Char) :
    (afterHour h l).1 =
      ⟨h, (matchMinutes l).1, (matchMeridiem ((matchMinutes l).2.dropWhile isJsSpace)).1⟩ :=
  rfl

theorem scanAuxF_bound :
    ∀ (fuel : Nat) (l : List Char) (tok : RawTok), tok ∈ scanAuxF fuel l →
      tok.hour ≤ 99 ∧ tok.minutes.getD 0 ≤ 99 := by
  intro fuel
  induction fuel with
  | zero =>
    intro l tok h
    rw [scanAuxF_zero] at h
    simp at h
  | succ n ih =>
    intro l tok h
    match l with
    | [] =>
      rw [scanAuxF_succ_nil] at h
      simp at h
    | c :: cs =>
      rw [scanAuxF_succ_cons] at h
      by_cases hd : isDigitC c
      · simp only [hd, if_true] at h
        match cs with
        | [] =>
          simp only [List.mem_singleton] at h
          subst h
          refine ⟨Nat.le_trans (isDigitC_digitVal hd) (by omega), by simp⟩
        | c2 :: cs2 =>
          by_cases hd2 : isDigitC c2
          · simp only [hd2, if_true] at h
            rcases List.mem_cons.mp h with h1 | h2
            · subst h1
              rw [afterHour_tok]
              refine ⟨?_, matchMinutes_getD cs2⟩
              have ha := isDigitC_digitVal hd
              have hb := isDigitC_digitVal hd2
              dsimp only
              omega
            · exact ih _ _ h2
          · simp only [hd2, if_false] at h
            rcases List.mem_cons.mp h with h1 | h2
            · subst h1
              rw [afterHour_tok]
              refine ⟨?_, matchMinutes_getD (c2 :: cs2)⟩
              have ha := isDigitC_digitVal hd
              dsimp only
              omega
            · exact ih _ _ h2
      · simp only [hd, if_false] at h
        exact ih _ _ h

theorem scanAux_bound (l : List Char) (tok : RawTok) (h : tok ∈ scanAux l) :
    tok.hour ≤ 99 ∧ tok.minutes.getD 0 ≤ 99 := by
  rw [scanAux_eq_fuel l.length l (Nat.le_refl _)] at h
  exact scanAuxF_bound _ _ _ h

theorem resolveTok_le (t : RawTok) (h1 : t.hour ≤ 99) (h2 : t.minutes.getD 0 ≤ 99) :
    resolveTok t ≤ 6039 := by
  rcases t with ⟨hh, mm, mer⟩
  simp only at h1 h2
  unfold resolveTok
  cases mer with
  | none =>
    simp only
    split <;> omega
  | some m =>
    cases m with
    | am =>
      simp only
      split <;> omega
    | pm =>
      simp only
      split <;> omega
    | noon =>
      simp only
      omega

/-! ### Claim C3: the missing-meridiem fallback -/

/-- C3: for every matched token without an explicit meridiem, `parseTimes`
resolves the hour by the fallback: hour in [1,6] gains 12 (PM guess), any
other hour is left unchanged; and the two concrete examples of the spec. -/
theorem c3_missing_meridiem_fallback :
    (∀ (text : String) (tok : RawTok), tok ∈ scanAux text.data → tok.mer = none →
      resolveTok tok =
        (if 1 ≤ tok.hour ∧ tok.hour ≤ 6 then tok.hour + 12 else tok.hour) * 60 +
          tok.minutes.getD 0) ∧
    parseTimes "7:00, 8:00, 6:00pm" = [420, 480, 1080] ∧
    parseTimes "1:00, 2:00" = [780, 840] := by
  refine ⟨?_, ?_, ?_⟩
  · intro text tok _ hmer
    rcases tok with ⟨hh, mm, mer⟩
    simp only at hmer
    subst hmer
    rfl
  · rw [parseTimes_eval]
    decide
  · rw [parseTimes_eval]
    decide

/-- Witness for C3: the token `1:00` of the text `"1:00"` has no meridiem and
resolves through the PM fallback to 780 minutes. -/
theorem c3_witness :
    (⟨1, some 0, none⟩ : RawTok) ∈ scanAux ("1:00" : String).data ∧
    resolveTok ⟨1, some 0, none⟩ =
      (if 1 ≤ (1 : Nat) ∧ (1 : Nat) ≤ 6 then 1 + 12 else 1) * 60 +
        (some 0).getD 0 := by
  have hmem : (⟨1, some 0, none⟩ : RawTok) ∈ scanAux ("1:00" : String).data := by
    rw [scanAux_eq_fuel ("1:00" : String).data.length ("1:00" : String).data (Nat.le_refl _)]
    decide
  exact ⟨hmem, c3_missing_meridiem_fallback.1 "1:00" ⟨1, some 0, none⟩ hmem rfl⟩

/-! ### Claim C4: the output range of `parseTimes` -/

/-- C4 counterexample: the regex accepts a two-digit hour up to 99, so the
spec range [0, 1439] is exceeded: `parseTimes "25:00" = [1500]`. -/
theorem c4_counterexample : ¬ (∀ t ∈ parseTimes "25:00", t ≤ 1439) := by
  rw [parseTimes_eval]
  decide

/-- C4 amended: each element equals resolved-hour * 60 + minute where the
matched hour is at most 99 and the minute group at most 99, so every element
of `parseTimes` lies in [0, 6039] (but not always in [0, 1439]). -/
theorem c4_parseTimes_range :
    ∀ (text : String) (t : Nat), t ∈ parseTimes text → t ≤ 6039 := by
  intro text t ht
  unfold parseTimes at ht
  rcases List.mem_map.mp ht with ⟨tok, htok, rfl⟩
  have hb := scanAux_bound _ _ htok
  exact resolveTok_le _ hb.1 hb.2

/-- Witness for C4: 420 is an element of `parseTimes "7:00"` and is within
the proved bound. -/
theorem c4_witness : 420 ∈ parseTimes "7:00" ∧ 420 ≤ 6039 := by
  have hmem : 420 ∈ parseTimes "7:00" := by
    rw [parseTimes_eval]
    decide
  exact ⟨hmem, c4_parseTimes_range "7:00" 420 hmem⟩

/-! ### Claim C6: the early-return guards of the day-restriction heuristic -/

/-- C6: `dayRestrictionConflict` returns false whenever the text has no
digit, or the lower-cased prefix before the first digit trims to fewer than
3 characters, or the prefix contains no day-name token; in particular it is
false on `"7:00am"` for every weekday. -/
theorem c6_no_restriction_guards :
    (∀ (text : String) (d : Nat), takeBeforeDigit text.data = none →
        hasDayRestrictionConflict text d = false) ∧
    (∀ (text : String) (d : Nat) (p : List Char), takeBeforeDigit text.data = some p →
        (trimWs (p.map toLowerJs)).length < 3 →
        hasDayRestrictionConflict text d = false) ∧
    (∀ (text : String) (d : Nat) (p : List Char), takeBeforeDigit text.data = some p →
        daysFound (p.map toLowerJs) = [] →
        hasDayRestrictionConflict text d = false) ∧
    (∀ d : Nat, hasDayRestrictionConflict "7:00am" d = false) := by
  refine ⟨?_, ?_, ?_, ?_⟩
  · intro text d h
    simp [hasDayRestrictionConflict, h]
  · intro text d p hp hlen
    simp [hasDayRestrictionConflict, hp, hlen]
  · intro text d p hp hemp
    simp [hasDayRestrictionConflict, hp, hemp]
  · intro d
    have hp : takeBeforeDigit ("7:00am" : String).data = some [] := by decide
    simp [hasDayRestrictionConflict, hp, trimWs]

/-- Witness for C6: concrete instances of all three guards. -/
theorem c6_witness :
    takeBeforeDigit ("no digits here" : String).data = none ∧
    hasDayRestrictionConflict "no digits here" 2 = false ∧
    hasDayRestrictionConflict "7:00am" 5 = false := by
  have h1 : takeBeforeDigit ("no digits here" : String).data = none := by decide
  exact ⟨h1, c6_no_restriction_guards.1 "no digits here" 2 h1,
    c6_no_restriction_guards.2.2.2 5⟩

/-! ### Claim C7: the weekday-to-category table -/

theorem processItem_skip (day now : Nat) (acc : Option Nat) (item : ScheduleItem)
    (h : (categoriesFor day).contains item.type = false) :
    processItem day now acc item = acc := by
  unfold processItem
  rw [if_pos]
  rw [h]
  rfl

theorem foldl_processItem_filter (day now : Nat) :
    ∀ (sched : List ScheduleItem) (acc : Option Nat),
      (sched.filter (fun i => (categoriesFor day).contains i.type)).foldl
          (processItem day now) acc =
        sched.foldl (processItem day now) acc := by
  intro sched
  induction sched with
  | nil => intro acc; rfl
  | cons i rest ih =>
    intro acc
    rw [List.filter_cons]
    by_cases hc : (categoriesFor day).contains i.type
    · simp only [hc, if_true, List.foldl_cons]
      exact ih _
    · simp only [Bool.not_eq_true] at hc
      simp only [hc, Bool.false_eq_true, if_false, List.foldl_cons]
      rw [processItem_skip day now acc i hc]
      exact ih _

/-- C7: the applicable category set is a function of the weekday alone —
Sunday gives Sunday Masses, Saturday gives Weekday plus Anticipated Sunday
Masses, Monday to Friday give Weekday Masses — and entries whose category is
outside the set are ignored by the next-occurrence computation (filtering
them away does not change the result). -/
theorem c7_day_categories :
    categoriesFor 0 = ["Sunday Masses"] ∧
    categoriesFor 6 = ["Weekday Masses", "Anticipated Sunday Masses"] ∧
    (∀ d : Nat, 1 ≤ d → d ≤ 5 → categoriesFor d = ["Weekday Masses"]) ∧
    (∀ (sched : List ScheduleItem) (d now : Nat),
      calculateNextMassTime sched d now =
        calculateNextMassTime (sched.filter (fun i => (categoriesFor d).contains i.type))
          d now) := by
  refine ⟨rfl, rfl, ?_, ?_⟩
  · intro d h1 h5
    unfold categoriesFor
    rw [if_neg (by omega), if_neg (by omega)]
  · intro sched d now
    unfold calculateNextMassTime
    rw [foldl_processItem_filter]

/-- Witness for C7 at a weekday in 1..5. -/
theorem c7_witness : categoriesFor 3 = ["Weekday Masses"] :=
  c7_day_categories.2.2.1 3 (by decide) (by decide)

/-! ### Claim C8: the reference instant is read from the system clock -/

/-- C8: the source computes `now = new Date()` inside `calculateNextMassTime`
(part_000 line 85) instead of taking a caller-supplied reference instant; the
embedding exposes that clock reading as the `day`/`currentMinutes` parameters,
and the result genuinely depends on them: the same schedule argument yields
different results at two clock readings. -/
theorem c8_clock_reading_changes_result :
    calculateNextMassTime [⟨"Sunday Masses", "8:00, 10:00, 6:00pm"⟩] 0 570 = some 600 ∧
    calculateNextMassTime [⟨"Sunday Masses", "8:00, 10:00, 6:00pm"⟩] 0 1380 = none := by
  constructor <;>
    · simp only [calculateNextMassTime, List.foldl, processItem, parseTimes_eval]
      decide


/-! ### Claim C1: next-occurrence selection computes the minimum qualifying time -/

theorem optMin_none_right (a : Option Nat) : optMin a none = a := by
  cases a <;> rfl

theorem optMin_assoc (a b c : Option Nat) :
    optMin (optMin a b) c = optMin a (optMin b c) := by
  cases a <;> cases b <;> cases c <;> simp only [optMin, Option.some.injEq] <;>
    split_ifs <;> omega

theorem considerTime_of_lt (now : Nat) (acc : Option Nat) (t : Nat) (h : ¬ now ≤ t) :
    considerTime now acc t = acc := by
  cases acc with
  | none => simp [considerTime, h]
  | some n =>
    simp only [considerTime]
    rw [if_neg (fun hc => h hc.1)]

theorem considerTime_of_le (now : Nat) (acc : Option Nat) (t : Nat) (h : now ≤ t) :
    considerTime now acc t = optMin acc (some t) := by
  cases acc with
  | none => simp [considerTime, optMin, h]
  | some n =>
    simp only [considerTime, optMin]
    by_cases hlt : t < n
    · rw [if_pos ⟨h, hlt⟩, if_neg (by omega)]
    · rw [if_neg (fun hc => hlt hc.2), if_pos (by omega)]

theorem foldl_considerTime (now : Nat) :
    ∀ (ts : List Nat) (acc : Option Nat),
      ts.foldl (considerTime now) acc =
        optMin acc (listMinOpt (ts.filter (fun t => decide (now ≤ t)))) := by
  intro ts
  induction ts with
  | nil =>
    intro acc
    rw [List.foldl_nil]
    simp [listMinOpt, optMin_none_right]
  | cons t ts ih =>
    intro acc
    rw [List.foldl_cons, ih, List.filter_cons]
    by_cases h : now ≤ t
    · rw [if_pos (by simpa using h)]
      rw [considerTime_of_le now acc t h]
      show _ = optMin acc (optMin (some t) _)
      rw [optMin_assoc]
    · rw [if_neg (by simpa using h)]
      rw [considerTime_of_lt now acc t h]

theorem listMinOpt_append :
    ∀ (a b : List Nat), listMinOpt (a ++ b) = optMin (listMinOpt a) (listMinOpt b) := by
  intro a b
  induction a with
  | nil => rfl
  | cons t ts ih =>
    simp only [List.cons_append, List.append_eq, listMinOpt]
    rw [ih, optMin_assoc]

theorem processItem_conflict (day now : Nat) (acc : Option Nat) (item : ScheduleItem)
    (hc : (categoriesFor day).contains item.type = true)
    (hr : hasDayRestrictionConflict item.time day = true) :
    processItem day now acc item = acc := by
  unfold processItem
  rw [hc, hr]
  simp

theorem processItem_keep (day now : Nat) (acc : Option Nat) (item : ScheduleItem)
    (hc : (categoriesFor day).contains item.type = true)
    (hr : hasDayRestrictionConflict item.time day = false) :
    processItem day now acc item = (parseTimes item.time).foldl (considerTime now) acc := by
  unfold processItem
  rw [hc, hr]
  simp

theorem calculateNextMassTime_spec_aux (day now : Nat) :
    ∀ (sched : List ScheduleItem) (acc : Option Nat),
      sched.foldl (processItem day now) acc =
        optMin acc
          (listMinOpt ((specCandidateTimes sched day).filter (fun t => decide (now ≤ t)))) := by
  intro sched
  induction sched with
  | nil =>
    intro acc
    rw [List.foldl_nil]
    simp [specCandidateTimes, listMinOpt, optMin_none_right]
  | cons item rest ih =>
    intro acc
    rw [List.foldl_cons, ih]
    have hsc : specCandidateTimes (item :: rest) day =
        (if (categoriesFor day).contains item.type &&
            !hasDayRestrictionConflict item.time day
         then parseTimes item.time ++ specCandidateTimes rest day
         else specCandidateTimes rest day) := rfl
    rw [hsc]
    by_cases hc : (categoriesFor day).contains item.type
    · by_cases hr : hasDayRestrictionConflict item.time day
      · rw [if_neg (by rw [hc, hr]; simp)]
        rw [processItem_conflict day now acc item hc hr]
      · rw [Bool.not_eq_true] at hr
        rw [if_pos (by rw [hc, hr]; rfl)]
        rw [processItem_keep day now acc item hc hr, foldl_considerTime,
          List.filter_append, listMinOpt_append, optMin_assoc]
    · rw [Bool.not_eq_true] at hc
      rw [if_neg (by rw [hc]; simp)]
      rw [processItem_skip day now acc item hc]

/-- C1: `calculateNextMassTime` considers exactly the entries whose category
is applicable for the weekday and which have no day-restriction conflict,
parses every clock time in their text, and returns the minimum time at or
after `nowMinutes` (absent when no time qualifies); plus the end-to-end
Sunday example of the spec. -/
theorem c1_next_occurrence_minimum :
    (∀ (sched : List ScheduleItem) (day now : Nat),
      calculateNextMassTime sched day now = specNextOccurrence sched day now) ∧
    calculateNextMassTime [⟨"Sunday Masses", "8:00, 10:00, 6:00pm"⟩] 0 570 = some 600 ∧
    calculateNextMassTime [⟨"Sunday Masses", "8:00, 10:00, 6:00pm"⟩] 0 1380 = none := by
  refine ⟨?_, ?_, ?_⟩
  · intro sched day now
    unfold calculateNextMassTime specNextOccurrence
    rw [calculateNextMassTime_spec_aux]
    rfl
  · simp only [calculateNextMassTime, List.foldl, processItem, parseTimes_eval]
    decide
  · simp only [calculateNextMassTime, List.foldl, processItem, parseTimes_eval]
    decide

/-! ### Claim C9: the returned church list is sorted by distance -/

/-- C9: for every input element list (and any schedule table and clock
reading), the list returned by `findNearbyChurches` is pairwise
non-decreasing in the distance field, an absent distance counting as 0. -/
theorem c9_sorted_by_distance :
    ∀ (table : String → Option MassScheduleData) (day now : Nat) (elems : List Element),
      List.Pairwise (fun a b : Church => a.distance.getD 0 ≤ b.distance.getD 0)
        (findNearbyChurches table day now elems) := by
  intro table day now elems
  unfold findNearbyChurches
  have hs :
      List.Pairwise (fun a b => churchLe a b = true)
        (List.mergeSort ((elems.map (toChurchOpt table day now)).filterMap id) churchLe) := by
    apply List.sorted_mergeSort
    · intro a b c hab hbc
      simp only [churchLe, decide_eq_true_eq] at hab hbc ⊢
      omega
    · intro a b
      simp only [churchLe]
      by_cases h : a.distance.getD 0 ≤ b.distance.getD 0
      · simp [h]
      · simp [h]
        omega
  exact hs.imp (by intro a b h; simpa [churchLe] using h)

/-! ### Claim C10: excluded denominations never appear in the result -/

/-- C10: no church whose name contains `Swatow Christian`, `Lutheran`,
`Methodist` or `Baptist` as a substring appears in the output of
`findNearbyChurches`: such elements are mapped to `null` and filtered out. -/
theorem c10_excluded_names :
    ∀ (table : String → Option MassScheduleData) (day now : Nat)
      (elems : List Element) (c : Church), c ∈ findNearbyChurches table day now elems →
      containsSub "Swatow Christian".data c.name.data = false ∧
      containsSub "Lutheran".data c.name.data = false ∧
      containsSub "Methodist".data c.name.data = false ∧
      containsSub "Baptist".data c.name.data = false := by
  intro table day now elems c hc
  unfold findNearbyChurches at hc
  rw [List.mem_mergeSort] at hc
  rcases List.mem_filterMap.mp hc with ⟨o, ho, hoc⟩
  rcases List.mem_map.mp ho with ⟨e, _, rfl⟩
  simp only [id] at hoc
  by_cases hex : isExcludedName (elementName e)
  · exfalso
    unfold toChurchOpt at hoc
    rw [if_pos hex] at hoc
    exact Option.noConfusion hoc
  · unfold toChurchOpt at hoc
    rw [if_neg hex] at hoc
    rw [Option.some.injEq] at hoc
    subst hoc
    simp only [Bool.not_eq_true] at hex
    unfold isExcludedName at hex
    simp only [Bool.or_eq_false_iff] at hex
    exact ⟨hex.1.1.1, hex.1.1.2, hex.1.2, hex.2⟩

/-- Witness for C10: a concrete batch in which a Lutheran element is dropped
and the surviving church's name is clean. -/
theorem c10_witness :
    ((⟨2, "Rosary", some 3, none, none⟩ : Church) ∈
      findNearbyChurches (fun _ => none) 0 0
        [⟨1, some "Lutheran Church", 7⟩, ⟨2, some "Rosary", 3⟩]) ∧
    containsSub "Lutheran".data ("Rosary" : String).data = false := by
  have hmem : (⟨2, "Rosary", some 3, none, none⟩ : Church) ∈
      findNearbyChurches (fun _ => none) 0 0
        [⟨1, some "Lutheran Church", 7⟩, ⟨2, some "Rosary", 3⟩] := by
    have hlist :
        ((([⟨1, some "Lutheran Church", 7⟩, ⟨2, some "Rosary", 3⟩] : List Element).map
            (toChurchOpt (fun _ => none) 0 0)).filterMap id) =
          [⟨2, "Rosary", some 3, none, none⟩] := by
      decide
    unfold findNearbyChurches
    rw [hlist, List.mergeSort_singleton]
    exact List.mem_singleton.mpr rfl
  exact ⟨hmem, (c10_excluded_names _ _ _ _ _ hmem).2.1⟩


/-! ### Claim C5: the main branch of the day-restriction heuristic -/

theorem startsWithL_iff (p : List Char) :
    ∀ (l : List Char), startsWithL p l = true ↔ ∃ v, l = p ++ v := by
  induction p with
  | nil =>
    intro l
    simp [startsWithL]
  | cons x xs ih =>
    intro l
    cases l with
    | nil =>
      simp [startsWithL]
    | cons c cs =>
      simp only [startsWithL, Bool.and_eq_true, decide_eq_true_eq]
      constructor
      · rintro ⟨rfl, h⟩
        rcases (ih cs).mp h with ⟨v, rfl⟩
        exact ⟨v, rfl⟩
      · rintro ⟨v, hv⟩
        rw [List.cons_append] at hv
        injection hv with h1 h2
        exact ⟨h1.symm, (ih cs).mpr ⟨v, h2⟩⟩

theorem containsSub_iff (p : List Char) :
    ∀ (l : List Char), containsSub p l = true ↔ ∃ u v, l = u ++ p ++ v := by
  intro l
  induction l with
  | nil =>
    simp only [containsSub, startsWithL_iff]
    constructor
    · rintro ⟨v, hv⟩
      exact ⟨[], v, by simpa using hv⟩
    · rintro ⟨u, v, hv⟩
      have hu : u = [] := by
        cases u with
        | nil => rfl
        | cons a as => simp at hv
      subst hu
      exact ⟨v, by simpa using hv⟩
  | cons c cs ih =>
    simp only [containsSub, Bool.or_eq_true, startsWithL_iff, ih]
    constructor
    · rintro (⟨v, hv⟩ | ⟨u, v, hv⟩)
      · exact ⟨[], v, by simpa using hv⟩
      · exact ⟨c :: u, v, by simp [hv]⟩
    · rintro ⟨u, v, hv⟩
      cases u with
      | nil =>
        exact Or.inl ⟨v, by simpa using hv⟩
      | cons u0 us =>
        simp only [List.cons_append] at hv
        injection hv with h1 h2
        exact Or.inr ⟨us, v, h2⟩

theorem containsSub_length {p l : List Char} (h : containsSub p l = true) :
    p.length ≤ l.length := by
  rcases (containsSub_iff p l).mp h with ⟨u, v, rfl⟩
  simp only [List.length_append]
  omega

theorem containsSub_dropWhile {p l : List Char} (hp : p ≠ [])
    (hc : ∀ c ∈ p, isJsSpace c = false) (h : containsSub p l = true) :
    containsSub p (l.dropWhile isJsSpace) = true := by
  rcases (containsSub_iff p l).mp h with ⟨u, v, rfl⟩
  rw [List.append_assoc, List.dropWhile_append]
  split
  · cases p with
    | nil => exact absurd rfl hp
    | cons p0 ps =>
      rw [List.cons_append, List.dropWhile_cons,
        if_neg (by simp [hc p0 (List.mem_cons_self p0 ps)])]
      exact (containsSub_iff _ _).mpr ⟨[], v, by simp⟩
  · exact (containsSub_iff _ _).mpr ⟨_, v, by rw [List.append_assoc]⟩

theorem containsSub_rev_of {p l : List Char} (h : containsSub p l = true) :
    containsSub p.reverse l.reverse = true := by
  rcases (containsSub_iff p l).mp h with ⟨u, v, rfl⟩
  exact (containsSub_iff _ _).mpr
    ⟨v.reverse, u.reverse, by simp [List.reverse_append, List.append_assoc]⟩

theorem containsSub_trimWs {p l : List Char} (hp : p ≠ [])
    (hc : ∀ c ∈ p, isJsSpace c = false) (h : containsSub p l = true) :
    containsSub p (trimWs l) = true := by
  unfold trimWs
  have h1 := containsSub_dropWhile hp hc h
  have h2 := containsSub_rev_of h1
  have h3 : containsSub p.reverse
      ((l.dropWhile isJsSpace).reverse.dropWhile isJsSpace) = true := by
    refine containsSub_dropWhile ?_ ?_ h2
    · simpa using hp
    · intro c hcm
      exact hc c (List.mem_reverse.mp hcm)
  have h4 := containsSub_rev_of h3
  simpa using h4

theorem dayMap_tokens :
    ∀ kv ∈ dayMap, kv.1 ≠ [] ∧ 3 ≤ kv.1.length ∧ ∀ c ∈ kv.1, isJsSpace c = false := by
  decide

/-- C5: when the prefix before the first digit contains at least one day-name
token, `dayRestrictionConflict` returns false exactly when the range branch
covers today or today is among the explicit day tokens, and true otherwise;
plus the two concrete examples of the spec. -/
theorem c5_day_restriction_semantics :
    (∀ (text : String) (d : Nat) (p : List Char),
        takeBeforeDigit text.data = some p →
        daysFound (p.map toLowerJs) ≠ [] →
        hasDayRestrictionConflict text d =
          !(rangeAllows (p.map toLowerJs) d ||
            (daysFound (p.map toLowerJs)).contains d)) ∧
    hasDayRestrictionConflict "Mon to Fri 7:00am" 3 = false ∧
    hasDayRestrictionConflict "Mon to Fri 7:00am" 0 = true := by
  refine ⟨?_, by decide, by decide⟩
  intro text d p hp hdf
  have htok : ∃ kv ∈ dayMap, containsSub kv.1 (p.map toLowerJs) = true := by
    by_contra hno
    push_neg at hno
    apply hdf
    unfold daysFound
    rw [List.filter_eq_nil_iff.mpr (by
      intro kv hkv
      simp only [Bool.not_eq_true]
      exact Bool.not_eq_true _ |>.mp (hno kv hkv))]
    rfl
  rcases htok with ⟨kv, hkvmem, hkvsub⟩
  rcases dayMap_tokens kv hkvmem with ⟨hne, hlen3, hnosp⟩
  have htrim := containsSub_trimWs hne hnosp hkvsub
  have hlen : ¬((trimWs (p.map toLowerJs)).length < 3) := by
    have := containsSub_length htrim
    omega
  unfold hasDayRestrictionConflict
  rw [hp]
  simp only
  rw [if_neg hlen]
  have hde : (daysFound (p.map toLowerJs)).isEmpty = false :=
    List.isEmpty_eq_false.mpr hdf
  rw [hde]
  simp only [Bool.false_eq_true, if_false]
  by_cases hra : rangeAllows (p.map toLowerJs) d
  · rw [if_pos hra, hra]
    rfl
  · rw [if_neg hra]
    rw [Bool.not_eq_true] at hra
    rw [hra]
    by_cases hco : (daysFound (p.map toLowerJs)).contains d
    · rw [if_pos hco, hco]
      rfl
    · rw [if_neg hco]
      rw [Bool.not_eq_true] at hco
      rw [hco]
      rfl

/-- Witness for C5 at the spec's range-phrase example. -/
theorem c5_witness :
    takeBeforeDigit ("Mon to Fri 7:00am" : String).data =
      some ("Mon to Fri " : String).data ∧
    hasDayRestrictionConflict "Mon to Fri 7:00am" 3 =
      !(rangeAllows (("Mon to Fri " : String).data.map toLowerJs) 3 ||
        (daysFound (("Mon to Fri " : String).data.map toLowerJs)).contains 3) := by
  have hp : takeBeforeDigit ("Mon to Fri 7:00am" : String).data =
      some ("Mon to Fri " : String).data := by decide
  exact ⟨hp, c5_day_restriction_semantics.1 "Mon to Fri 7:00am" 3 _ hp (by decide)⟩


/-! ### Claim C2: normalization idempotence

`normalize` is not idempotent in general: stripping punctuation (step 3)
runs after the `saint`-to-`st` replacement (step 2), so it can create a new
standalone `saint` that only a second pass would rewrite.  The following
lemmas establish the exact boundary: steps 1, 3 and 5 always fix the output
of `normalize`, so `normalize` is idempotent exactly on the inputs whose
normal form is also fixed by steps 2 and 4. -/

theorem c2_counterexample_eval : normalize "sa.int" = "saint" := by
  rw [normalize_eval]
  decide

/-- C2 counterexample: `normalize "sa.int"` is `"saint"`, which a second
application of `normalize` rewrites to `"st"`. -/
theorem c2_counterexample : normalize (normalize "sa.int") ≠ normalize "sa.int" := by
  rw [normalize_eval "sa.int", normalize_eval]
  decide

theorem stripRest_suffix {p l r : List Char} (h : stripRest p l = some r) : r <:+ l := by
  induction p generalizing l with
  | nil =>
    simp only [stripRest, Option.some.injEq] at h
    subst h
    exact List.suffix_refl l
  | cons x xs ih =>
    cases l with
    | nil => simp [stripRest] at h
    | cons c cs =>
      simp only [stripRest] at h
      split at h
      · exact (ih h).trans (List.suffix_cons c cs)
      · exact absurd h (by simp)

theorem stripPat_suffix {pp : Char × List Char} {l r : List Char}
    (h : stripPat pp l = some r) : r <:+ l := by
  match pp, l with
  | (x, xs), [] => simp [stripPat] at h
  | (x, xs), c :: cs =>
    simp only [stripPat] at h
    split at h
    · exact (stripRest_suffix h).trans (List.suffix_cons c cs)
    · exact absurd h (by simp)

theorem findPats_suffix {pats : List (Char × List Char)} {l r : List Char}
    (h : findPats pats l = some r) : r <:+ l := by
  induction pats with
  | nil => simp [findPats] at h
  | cons pp ps ih =>
    simp only [findPats] at h
    cases hs : stripPat pp l with
    | none =>
      rw [hs] at h
      exact ih h
    | some r0 =>
      rw [hs] at h
      by_cases ho : okAfter r0
      · simp only [if_pos ho, Option.some.injEq] at h
        subst h
        exact stripPat_suffix hs
      · simp only [if_neg ho] at h
        exact ih h

theorem replaceScanF_zero (pats : List (Char × List Char)) (repl : List Char)
    (b : Bool) (l : List Char) : replaceScanF pats repl 0 b l = [] := rfl

theorem replaceScanF_succ_nil (pats : List (Char × List Char)) (repl : List Char)
    (fuel : Nat) (b : Bool) : replaceScanF pats repl (fuel + 1) b [] = [] := rfl

theorem mem_replaceScanF {pats : List (Char × List Char)} {repl : List Char} :
    ∀ (fuel : Nat) (b : Bool) (l : List Char) (c : Char),
      c ∈ replaceScanF pats repl fuel b l → c ∈ l ∨ c ∈ repl := by
  intro fuel
  induction fuel with
  | zero =>
    intro b l c h
    rw [replaceScanF_zero] at h
    simp at h
  | succ n ih =>
    intro b l c h
    match l with
    | [] =>
      rw [replaceScanF_succ_nil] at h
      simp at h
    | c0 :: cs =>
      rw [replaceScanF_succ_cons] at h
      by_cases hb : b
      · simp only [hb, if_true] at h
        rcases List.mem_cons.mp h with rfl | h2
        · exact Or.inl (List.mem_cons_self _ _)
        · rcases ih _ _ _ h2 with h3 | h3
          · exact Or.inl (List.mem_cons_of_mem _ h3)
          · exact Or.inr h3
      · simp only [hb, if_false] at h
        cases hf : findPats pats (c0 :: cs) with
        | some rest =>
          rw [hf] at h
          rcases List.mem_append.mp h with h2 | h2
          · exact Or.inr h2
          · rcases ih _ _ _ h2 with h3 | h3
            · exact Or.inl (List.IsSuffix.subset (findPats_suffix hf) h3)
            · exact Or.inr h3
        | none =>
          rw [hf] at h
          rcases List.mem_cons.mp h with rfl | h2
          · exact Or.inl (List.mem_cons_self _ _)
          · rcases ih _ _ _ h2 with h3 | h3
            · exact Or.inl (List.mem_cons_of_mem _ h3)
            · exact Or.inr h3

theorem mem_replaceScan {pats : List (Char × List Char)} {repl : List Char}
    {b : Bool} {l : List Char} {c : Char} (h : c ∈ replaceScan pats repl b l) :
    c ∈ l ∨ c ∈ repl := by
  rw [replaceScan_eq_fuel pats repl l.length b l (Nat.le_refl _)] at h
  exact mem_replaceScanF _ _ _ _ h

theorem collapseWsF_zero (l : List Char) : collapseWsF 0 l = [] := rfl

theorem collapseWsF_succ_nil (fuel : Nat) : collapseWsF (fuel + 1) [] = [] := rfl

theorem mem_collapseWsF :
    ∀ (fuel : Nat) (l : List Char) (c : Char), c ∈ collapseWsF fuel l → c ∈ l ∨ c = ' ' := by
  intro fuel
  induction fuel with
  | zero =>
    intro l c h
    rw [collapseWsF_zero] at h
    simp at h
  | succ n ih =>
    intro l c h
    match l with
    | [] =>
      rw [collapseWsF_succ_nil] at h
      simp at h
    | c0 :: cs =>
      rw [collapseWsF_succ_cons] at h
      by_cases hs : isJsSpace c0
      · simp only [hs, if_true] at h
        rcases List.mem_cons.mp h with rfl | h2
        · exact Or.inr rfl
        · rcases ih _ _ h2 with h3 | h3
          · exact Or.inl
              (List.mem_cons_of_mem _ (List.IsSuffix.subset (List.dropWhile_suffix isJsSpace) h3))
          · exact Or.inr h3
      · simp only [hs, if_false] at h
        rcases List.mem_cons.mp h with rfl | h2
        · exact Or.inl (List.mem_cons_self _ _)
        · rcases ih _ _ h2 with h3 | h3
          · exact Or.inl (List.mem_cons_of_mem _ h3)
          · exact Or.inr h3

theorem mem_collapseWs {l : List Char} {c : Char} (h : c ∈ collapseWs l) :
    c ∈ l ∨ c = ' ' := by
  rw [collapseWs_eq_fuel l.length l (Nat.le_refl _)] at h
  exact mem_collapseWsF _ _ _ h

theorem mem_trimWs {l : List Char} {c : Char} (h : c ∈ trimWs l) : c ∈ l := by
  unfold trimWs at h
  rw [List.mem_reverse] at h
  have h2 := List.IsSuffix.subset (List.dropWhile_suffix isJsSpace) h
  rw [List.mem_reverse] at h2
  exact List.IsSuffix.subset (List.dropWhile_suffix isJsSpace) h2

theorem toLowerJs_not_upper (c : Char) :
    ¬(65 ≤ (toLowerJs c).toNat ∧ (toLowerJs c).toNat ≤ 90) := by
  unfold toLowerJs
  by_cases h : 65 ≤ c.toNat ∧ c.toNat ≤ 90
  · rw [if_pos h, charToNat_ofNat (c.toNat + 32) (by omega)]
    omega
  · rw [if_neg h]
    exact h

theorem toLowerJs_fix {c : Char} (h : ¬(65 ≤ c.toNat ∧ c.toNat ≤ 90)) :
    toLowerJs c = c := if_neg h

/-- Every character of a normalized name is a kept (word-or-space) character
that is not an upper-case ASCII letter, or the single space inserted by the
whitespace collapse. -/
theorem normalize_char_inv (s : String) (c : Char) (h : c ∈ (normalize s).data) :
    (keepChar c = true ∧ ¬(65 ≤ c.toNat ∧ c.toNat ≤ 90)) ∨ c = ' ' := by
  have h0 : c ∈ trimWs (collapseWs (removeStopWords
      ((replaceSaint (s.data.map toLowerJs)).filter keepChar))) := h
  have h1 := mem_trimWs h0
  rcases mem_collapseWs h1 with h2 | h2
  · unfold removeStopWords at h2
    rcases mem_replaceScan h2 with h3 | h3
    · have hk := (List.mem_filter.mp h3).2
      have h4 := (List.mem_filter.mp h3).1
      unfold replaceSaint at h4
      rcases mem_replaceScan h4 with h5 | h5
      · rcases List.mem_map.mp h5 with ⟨d, _, rfl⟩
        exact Or.inl ⟨hk, toLowerJs_not_upper d⟩
      · have hst : ("st" : String).data = ['s', 't'] := rfl
        rw [hst] at h5
        rcases List.mem_cons.mp h5 with rfl | h6
        · exact Or.inl ⟨hk, by decide⟩
        · rcases List.mem_cons.mp h6 with rfl | h7
          · exact Or.inl ⟨hk, by decide⟩
          · simp at h7
    · simp at h3
  · exact Or.inr h2

/-- Step 1 (lower-casing) fixes every normalized name. -/
theorem normalize_lower_fix (s : String) :
    (normalize s).data.map toLowerJs = (normalize s).data := by
  have hall : ∀ c ∈ (normalize s).data, toLowerJs c = c := by
    intro c hc
    rcases normalize_char_inv s c hc with ⟨_, hup⟩ | rfl
    · exact toLowerJs_fix hup
    · decide
  have h2 : (normalize s).data.map toLowerJs = (normalize s).data.map id :=
    List.map_congr_left (by intro a ha; rw [hall a ha]; rfl)
  rw [h2, List.map_id]

/-- Step 3 (punctuation stripping) fixes every normalized name. -/
theorem normalize_filter_fix (s : String) :
    (normalize s).data.filter keepChar = (normalize s).data := by
  rw [List.filter_eq_self]
  intro c hc
  rcases normalize_char_inv s c hc with ⟨hk, _⟩ | rfl
  · exact hk
  · decide


/-- Every jsSpace character of the list is the plain space character. -/
def SpOk (l : List Char) : Prop := ∀ c ∈ l, isJsSpace c = true → c = ' '

/-- No two adjacent characters of the list are both whitespace. -/
def NoAdj (l : List Char) : Prop :=
  List.Chain' (fun a b => ¬(isJsSpace a = true ∧ isJsSpace b = true)) l

theorem head?_dropWhile_false (p : Char → Bool) (l : List Char) (d : Char)
    (hd : (l.dropWhile p).head? = some d) : p d = false := by
  have h := List.head?_dropWhile_not p l
  rw [hd] at h
  exact h

theorem collapseWsF_spOk : ∀ (fuel : Nat) (l : List Char), SpOk (collapseWsF fuel l) := by
  intro fuel
  induction fuel with
  | zero =>
    intro l c hc
    rw [collapseWsF_zero] at hc
    simp at hc
  | succ n ih =>
    intro l c hc hsp
    match l with
    | [] =>
      rw [collapseWsF_succ_nil] at hc
      simp at hc
    | c0 :: cs =>
      rw [collapseWsF_succ_cons] at hc
      by_cases hs : isJsSpace c0
      · simp only [hs, if_true] at hc
        rcases List.mem_cons.mp hc with rfl | h2
        · rfl
        · exact ih _ c h2 hsp
      · simp only [hs, if_false] at hc
        rcases List.mem_cons.mp hc with rfl | h2
        · exact absurd hsp hs
        · exact ih _ c h2 hsp

theorem collapseWsF_head_not_sp (fuel : Nat) (m : List Char)
    (hm : ∀ d, m.head? = some d → isJsSpace d = false) :
    ∀ d, (collapseWsF fuel m).head? = some d → isJsSpace d = false := by
  cases fuel with
  | zero =>
    intro d hd
    rw [collapseWsF_zero] at hd
    simp at hd
  | succ n =>
    match m with
    | [] =>
      intro d hd
      rw [collapseWsF_succ_nil] at hd
      simp at hd
    | c0 :: cs =>
      intro d hd
      have h0 : isJsSpace c0 = false := hm c0 rfl
      rw [collapseWsF_succ_cons, h0] at hd
      simp only [Bool.false_eq_true, if_false, List.head?_cons, Option.some.injEq] at hd
      exact hd ▸ h0

theorem collapseWsF_noAdj : ∀ (fuel : Nat) (l : List Char), NoAdj (collapseWsF fuel l) := by
  intro fuel
  induction fuel with
  | zero =>
    intro l
    rw [collapseWsF_zero]
    exact List.chain'_nil
  | succ n ih =>
    intro l
    match l with
    | [] =>
      rw [collapseWsF_succ_nil]
      exact List.chain'_nil
    | c0 :: cs =>
      rw [collapseWsF_succ_cons]
      by_cases hs : isJsSpace c0
      · simp only [hs, if_true]
        rw [NoAdj, List.chain'_cons']
        refine ⟨?_, ih _⟩
        intro y hy hcon
        have hy2 : (collapseWsF n (cs.dropWhile isJsSpace)).head? = some y :=
          Option.mem_def.mp hy
        have hhead := collapseWsF_head_not_sp n (cs.dropWhile isJsSpace)
          (fun d hd => head?_dropWhile_false isJsSpace cs d hd) y hy2
        rw [hcon.2] at hhead
        exact Bool.noConfusion hhead
      · rw [Bool.not_eq_true] at hs
        simp only [hs, Bool.false_eq_true, if_false]
        rw [NoAdj, List.chain'_cons']
        refine ⟨?_, ih _⟩
        intro y _ hcon
        rw [hcon.1] at hs
        exact Bool.noConfusion hs

theorem collapseWs_spOk (l : List Char) : SpOk (collapseWs l) := by
  rw [collapseWs_eq_fuel l.length l (Nat.le_refl _)]
  exact collapseWsF_spOk _ _

theorem collapseWs_noAdj (l : List Char) : NoAdj (collapseWs l) := by
  rw [collapseWs_eq_fuel l.length l (Nat.le_refl _)]
  exact collapseWsF_noAdj _ _

theorem collapseWsF_fix :
    ∀ (fuel : Nat) (w : List Char), w.length ≤ fuel → SpOk w → NoAdj w →
      collapseWsF fuel w = w := by
  intro fuel
  induction fuel with
  | zero =>
    intro w hl _ _
    have hnil : w = [] := by
      cases w with
      | nil => rfl
      | cons c cs => simp at hl
    subst hnil
    rfl
  | succ n ih =>
    intro w hl hsp hadj
    match w with
    | [] => rfl
    | c0 :: cs =>
      rw [collapseWsF_succ_cons]
      have hlen : cs.length ≤ n := by
        simp only [List.length_cons] at hl
        omega
      have hsp2 : SpOk cs := fun c hc => hsp c (List.mem_cons_of_mem _ hc)
      have hadj2 : NoAdj cs := List.Chain'.tail hadj
      by_cases hs : isJsSpace c0
      · have hc0 : c0 = ' ' := hsp c0 (List.mem_cons_self _ _) hs
        have hdw : cs.dropWhile isJsSpace = cs := by
          cases cs with
          | nil => rfl
          | cons c1 cs1 =>
            rw [List.dropWhile_cons, if_neg ?hns]
            case hns =>
              have hpair := (List.chain'_cons.mp hadj).1
              intro h1
              exact hpair ⟨hs, h1⟩
        rw [if_pos hs, hdw, ih cs hlen hsp2 hadj2, hc0]
      · rw [if_neg hs, ih cs hlen hsp2 hadj2]

theorem collapseWs_fix {w : List Char} (h1 : SpOk w) (h2 : NoAdj w) :
    collapseWs w = w := by
  rw [collapseWs_eq_fuel w.length w (Nat.le_refl _)]
  exact collapseWsF_fix w.length w (Nat.le_refl _) h1 h2

theorem trimWs_spOk {l : List Char} (h : SpOk l) : SpOk (trimWs l) :=
  fun c hc => h c (mem_trimWs hc)

theorem noAdj_dropWhile {l : List Char} (h : NoAdj l) :
    NoAdj (l.dropWhile isJsSpace) :=
  List.Chain'.suffix h (List.dropWhile_suffix isJsSpace)

theorem noAdj_reverse {l : List Char} (h : NoAdj l) : NoAdj l.reverse := by
  rw [NoAdj, List.chain'_reverse]
  exact List.Chain'.imp (by intro a b hab hba; exact hab ⟨hba.2, hba.1⟩) h

theorem trimWs_noAdj {l : List Char} (h : NoAdj l) : NoAdj (trimWs l) := by
  unfold trimWs
  exact noAdj_reverse (noAdj_dropWhile (noAdj_reverse (noAdj_dropWhile h)))

theorem dropWhile_eq_self_of_head {l : List Char}
    (h : ∀ d, l.head? = some d → isJsSpace d = false) :
    l.dropWhile isJsSpace = l := by
  cases l with
  | nil => rfl
  | cons c cs =>
    rw [List.dropWhile_cons, if_neg (by simp [h c rfl])]

theorem trimWs_fix {w : List Char}
    (h1 : ∀ d, w.head? = some d → isJsSpace d = false)
    (h2 : ∀ d, w.reverse.head? = some d → isJsSpace d = false) :
    trimWs w = w := by
  unfold trimWs
  rw [dropWhile_eq_self_of_head h1, dropWhile_eq_self_of_head h2, List.reverse_reverse]

theorem trimWs_head_not_sp (l : List Char) :
    ∀ d, (trimWs l).head? = some d → isJsSpace d = false := by
  intro d hd
  unfold trimWs at hd
  have hpre : ((l.dropWhile isJsSpace).reverse.dropWhile isJsSpace).reverse <+:
      l.dropWhile isJsSpace := by
    have hsu : (l.dropWhile isJsSpace).reverse.dropWhile isJsSpace <:+
        (l.dropWhile isJsSpace).reverse := List.dropWhile_suffix _
    have h2 := List.reverse_prefix.mpr hsu
    rw [List.reverse_reverse] at h2
    exact h2
  rcases hpre with ⟨t, ht⟩
  have hmh : (l.dropWhile isJsSpace).head? = some d := by
    rw [← ht]
    cases hrev : ((l.dropWhile isJsSpace).reverse.dropWhile isJsSpace).reverse with
    | nil =>
      rw [hrev] at hd
      simp at hd
    | cons x xs =>
      rw [hrev] at hd
      simp only [List.head?_cons, Option.some.injEq] at hd
      rw [List.cons_append, List.head?_cons, hd]
  exact head?_dropWhile_false isJsSpace l d hmh

theorem trimWs_last_not_sp (l : List Char) :
    ∀ d, (trimWs l).reverse.head? = some d → isJsSpace d = false := by
  intro d hd
  unfold trimWs at hd
  rw [List.reverse_reverse] at hd
  exact head?_dropWhile_false isJsSpace _ d hd

/-- Step 5 (collapse plus trim) is idempotent. -/
theorem step5_fix (z : List Char) :
    trimWs (collapseWs (trimWs (collapseWs z))) = trimWs (collapseWs z) := by
  have h1 : collapseWs (trimWs (collapseWs z)) = trimWs (collapseWs z) :=
    collapseWs_fix (trimWs_spOk (collapseWs_spOk z)) (trimWs_noAdj (collapseWs_noAdj z))
  rw [h1]
  exact trimWs_fix (trimWs_head_not_sp _) (trimWs_last_not_sp _)

/-- C2 amended: normalization is idempotent on every input whose normal form
is fixed by the `saint` replacement and the stop-word removal (the
lower-casing, punctuation-stripping and whitespace steps always fix a normal
form); the two concrete names of the spec normalize to `st josephs`.  Full
idempotence fails: see `c2_counterexample`. -/
theorem c2_normalize_idempotent_cond :
    (∀ x : String,
        replaceSaint (normalize x).data = (normalize x).data →
        removeStopWords (normalize x).data = (normalize x).data →
        normalize (normalize x) = normalize x) ∧
    normalize "St. Joseph\x27s Church" = "st josephs" ∧
    normalize "saint joseph\x27s CHURCH" = "st josephs" := by
  refine ⟨?_, ?_, ?_⟩
  · intro x h2 h4
    apply String.ext
    show trimWs (collapseWs (removeStopWords
      ((replaceSaint ((normalize x).data.map toLowerJs)).filter keepChar))) =
        (normalize x).data
    rw [normalize_lower_fix, h2, normalize_filter_fix, h4]
    exact step5_fix _
  · rw [normalize_eval]
    decide
  · rw [normalize_eval]
    decide

/-- Witness for C2: the hypotheses of the conditional idempotence hold at
`"St. Joseph\x27s Church"` (its normal form `"st josephs"` is fixed by both
word-replacement stages), and idempotence follows there. -/
theorem c2_witness :
    replaceSaint (normalize "St. Joseph\x27s Church").data =
      (normalize "St. Joseph\x27s Church").data ∧
    removeStopWords (normalize "St. Joseph\x27s Church").data =
      (normalize "St. Joseph\x27s Church").data ∧
    normalize (normalize "St. Joseph\x27s Church") = normalize "St. Joseph\x27s Church" := by
  have hx : normalize "St. Joseph\x27s Church" = "st josephs" := by
    rw [normalize_eval]
    decide
  have h2 : replaceSaint (normalize "St. Joseph\x27s Church").data =
      (normalize "St. Joseph\x27s Church").data := by
    rw [hx]
    unfold replaceSaint
    rw [replaceScan_eq_fuel saintPats ("st" : String).data
      ("st josephs" : String).data.length false ("st josephs" : String).data (Nat.le_refl _)]
    decide
  have h4 : removeStopWords (normalize "St. Joseph\x27s Church").data =
      (normalize "St. Joseph\x27s Church").data := by
    rw [hx]
    unfold removeStopWords
    rw [replaceScan_eq_fuel stopPats []
      ("st josephs" : String).data.length false ("st josephs" : String).data (Nat.le_refl _)]
    decide
  exact ⟨h2, h4, c2_normalize_idempotent_cond.1 "St. Joseph\x27s Church" h2 h4⟩

end ChurchFinder
